import Mathlib

/-
Verification development for the dhcp-hosts-updater repository.

The reconciliation core lives in `updateHostsFile` and
`removeHostsThatMatchIPAndNotDomain` (src/main.go, src/pkg/host/updater.go,
src/edgeos.go — the three copies of the reconcile loop are textually
identical).  The table data structure is the hostess `Hostlist`
(github.com/cbednarski/hostess), an external dependency whose source is not
part of this repository; its primitives (`ContainsIP`, `FilterByIP`,
`IndexOf`, `Remove`, `Enable`, `Add`) are modelled here from the spec's
description of the Table (spec.md §3, §4.1).  Addresses are modelled as
opaque strings compared exactly, matching the spec's "Address comparison is
exact (same representation/family)".

The update pipeline (read hosts file, aggregate parse errors, reconcile,
persist) of src/pkg/host/updater.go and the `Updater`/`ServerProvider`
registry are embedded below as well, with the hostess file I/O results
(read error, parse error list, initial table) passed in as parameters.
-/

/-- Network address, exactly as compared by the reconciler. -/
abbrev Addr := String

/-- Go's `strings.ToLower` as used in the case-insensitive name comparison:
lowercase every character.  (Extensionally this is `String.toLower =
String.map Char.toLower`; it is stated on the character list so that the
kernel can evaluate it on concrete inputs.) -/
def toLowerStr (s : String) : String :=
  ⟨s.data.map Char.toLower⟩

/-- One row of the resolution table: hostess `Hostname` with fields
`Domain`, `IP`, `Enabled` (the `IPv6`/comment bookkeeping fields play no
role in the reconciler). -/
structure Hostname where
  domain  : String
  ip      : Addr
  enabled : Bool
deriving DecidableEq, Repr

/-- hostess `Hostlist`: the ordered table of entries. -/
abbrev Hostlist := List Hostname

/-- Modelled from the spec: hostess `Hostlist.ContainsIP`, the Table's
"existence check for a given address" (spec §3). -/
def containsIP (h : Hostlist) (ip : Addr) : Bool :=
  h.any fun e => e.ip = ip

/-- Modelled from the spec: hostess `Hostlist.FilterByIP`, the Table's
"all entries whose address equals a given address" access (spec §3),
in table order. -/
def filterByIP (h : Hostlist) (ip : Addr) : List Hostname :=
  h.filter fun e => e.ip = ip

/-- Modelled from the spec: hostess `Hostlist.IndexOf`, the position of the
given entry ("remove by identity/stable key", spec §4.1); yields the list
length when the entry is absent, mirroring Go's -1 sentinel which the
bounds guard of `Remove` turns into a no-op. -/
def indexOf (h : Hostlist) (e : Hostname) : Nat :=
  h.findIdx fun x => x = e

/-- Modelled from the spec: hostess `Hostlist.Remove`, removal "by its
position" (spec §4.1); out-of-range indices leave the table unchanged,
mirroring the Go bounds guard. -/
def remove (h : Hostlist) (i : Nat) : Hostlist :=
  h.eraseIdx i

/-- Modelled from the spec: the effect of the hostess `Hostlist.Enable`
call inside `removeHostsThatMatchIPAndNotDomain`.  The spec states that the
scanned entry that matched case-insensitively and is disabled is flipped
"to enabled (in place, same position — preserves order)" (spec §4.1), so
the occurrences of that entry's value are flipped in place. -/
def enable (h : Hostlist) (e : Hostname) : Hostlist :=
  h.map fun x => if x = e then { x with enabled := true } else x

/-- Modelled from the spec: hostess `Hostlist.Add` as used by the
reconcile loop — "a new `Entry{name, address, enabled: true}` is appended"
(spec §3, invariant 2). -/
def add (h : Hostlist) (domain : String) (ip : Addr) : Hostlist :=
  h ++ [⟨domain, ip, true⟩]

/-- The body of the `for _, matchingEntry := range hosts.FilterByIP(ip)`
loop of `removeHostsThatMatchIPAndNotDomain` (src/main.go,
src/pkg/host/updater.go): on a case-insensitive domain match, re-enable the
entry if it is disabled and set the found flag; otherwise remove the entry
at its current position. -/
def scanStep (domain : String) (st : Hostlist × Bool)
    (matchingEntry : Hostname) : Hostlist × Bool :=
  if toLowerStr matchingEntry.domain = toLowerStr domain then
    ((if !matchingEntry.enabled then enable st.1 matchingEntry else st.1),
      true)
  else
    (remove st.1 (indexOf st.1 matchingEntry), st.2)

/-- Translation of `removeHostsThatMatchIPAndNotDomain` (src/main.go,
src/pkg/host/updater.go): iterate `scanStep` over the snapshot of entries
matching `ip`.  Returns the mutated list and the found flag. -/
def removeHostsThatMatchIPAndNotDomain (hosts : Hostlist) (ip : Addr)
    (domain : String) : Hostlist × Bool :=
  if containsIP hosts ip then
    (filterByIP hosts ip).foldl (scanStep domain) (hosts, false)
  else
    (hosts, false)

/-- Translation of one iteration of the reconcile loop in `updateHostsFile`
(src/pkg/host/updater.go lines 74-90, src/main.go lines 117-131): skip an
empty name, otherwise run `removeHostsThatMatchIPAndNotDomain` and append a
new enabled entry when no case-insensitive match was found. -/
def updateHostsPair (hosts : Hostlist) (p : String × Addr) : Hostlist :=
  if p.1 = "" then hosts
  else
    let r := removeHostsThatMatchIPAndNotDomain hosts p.2 p.1
    if r.2 then r.1 else add r.1 p.1 p.2

/-- The reconcile loop of `updateHostsFile`: fold `updateHostsPair` over
the Mapping's (name, address) pairs in iteration order.  The Go `range`
over the map yields the pairs in an unspecified order, so the Mapping is
embedded as a list of pairs carrying one such order. -/
def reconcile (mapping : List (String × Addr)) (hosts : Hostlist) : Hostlist :=
  mapping.foldl updateHostsPair hosts

/-- An entry matches the pair (domain, ip): same address and
case-insensitively equal name. -/
def matchesPair (ip : Addr) (domain : String) (e : Hostname) : Bool :=
  e.ip = ip && toLowerStr e.domain = toLowerStr domain

/-- An entry is a stale alias for the pair (domain, ip): same address but a
case-insensitively different name. -/
def staleFor (ip : Addr) (domain : String) (e : Hostname) : Bool :=
  e.ip = ip && toLowerStr e.domain ≠ toLowerStr domain

/-- Flip an entry to enabled when it matches the pair, leave it alone
otherwise. -/
def flipIfMatches (ip : Addr) (domain : String) (e : Hostname) : Hostname :=
  if e.ip = ip ∧ toLowerStr e.domain = toLowerStr domain then
    { e with enabled := true }
  else e

/-- Closed form of the scan over one pair: drop the stale aliases, flip the
matching entries to enabled, keep everything else in place. -/
def closedList (h : Hostlist) (ip : Addr) (domain : String) : Hostlist :=
  (h.filter fun e => !staleFor ip domain e).map (flipIfMatches ip domain)

/-- The table component of `scanStep`, isolated from the found flag. -/
def act (domain : String) (h : Hostlist) (e : Hostname) : Hostlist :=
  if toLowerStr e.domain = toLowerStr domain then
    if !e.enabled then enable h e else h
  else remove h (indexOf h e)

/-- Fold the table actions of the scan over a snapshot list. -/
def applyOps (domain : String) (L : List Hostname) (h : Hostlist) : Hostlist :=
  L.foldl (act domain) h

/-- Outcome of one run of the `updateHostsFile` pipeline. -/
inductive RunOutcome where
  | readFailed (msg : String)
  | parseFailed (errs : List String)
  | printed (table : Hostlist)
  | saved (table : Hostlist)
deriving DecidableEq, Repr

/-- Translation of `updateHostsFile` in src/pkg/host/updater.go (lines
62-99): read the hosts file (a failure aborts), collect the parse errors (a
non-empty list aborts, reporting the whole list in one error), run the
reconcile loop over the mapping, then print the resulting list as JSON and
return nil — the `hostfile.Save()` call is commented out in this variant,
so the reconciled table is never handed to the store.  The hostess file I/O
is external, so the read result, the parse errors and the loaded table are
parameters. -/
def updaterUpdateHostsFile (readErr : Option String) (parseErrs : List String)
    (initial : Hostlist) (hosts : List (String × Addr)) : RunOutcome :=
  match readErr with
  | some msg => .readFailed msg
  | none =>
    if parseErrs.length ≠ 0 then .parseFailed parseErrs
    else .printed (reconcile hosts initial)

/-- Translation of `updateHostsFile` in src/main.go (lines 105-134) and
src/edgeos.go: the same pipeline, but ending in `hostfile.Save()`. -/
def mainUpdateHostsFile (readErr : Option String) (parseErrs : List String)
    (initial : Hostlist) (hosts : List (String × Addr)) : RunOutcome :=
  match readErr with
  | some msg => .readFailed msg
  | none =>
    if parseErrs.length ≠ 0 then .parseFailed parseErrs
    else .saved (reconcile hosts initial)

/-- Whether an outcome handed the table to the store's save operation. -/
def RunOutcome.isSaved : RunOutcome → Bool
  | .saved _ => true
  | _ => false

/-- `ServerProvider` (src/pkg/host/updater.go lines 12-30): provider id,
flag descriptions, and the hosts function.  Go's zero value has a nil
`GetHostsFn`, modelled as `none`; invoking it panics. -/
structure ServerProvider where
  id : String
  requiredFlags : List (String × String)
  optionalFlags : List (String × String)
  getHostsFn :
    Option (List (String × String) → Except String (List (String × Addr)))

/-- The zero value `ServerProvider` produced by indexing a Go map at a
missing key. -/
def zeroServerProvider : ServerProvider :=
  ⟨"", [], [], none⟩

/-- `Updater` (src/pkg/host/updater.go lines 32-35): the registry of server
providers keyed by id.  The Go map is modelled as an association list in
which the most recent `WithServer` registration is found first, matching
map-assignment overwrite. -/
structure Updater where
  servers : List (String × ServerProvider)

/-- `NewUpdater` (src/pkg/host/updater.go lines 38-42). -/
def newUpdater : Updater :=
  ⟨[]⟩

/-- `Updater.WithServer` (src/pkg/host/updater.go lines 44-49): store the
provider under its ID. -/
def withServer (u : Updater) (server : ServerProvider) : Updater :=
  ⟨(server.id, server) :: u.servers⟩

/-- Go map indexing `u.servers[server]`: the stored provider, or the zero
value when the key is missing. -/
def mapIndex (servers : List (String × ServerProvider)) (k : String) :
    ServerProvider :=
  match servers.lookup k with
  | some v => v
  | none => zeroServerProvider

/-- Outcome of `Updater.Update`. -/
inductive UpdateOutcome where
  | panicked
  | failed (msg : String)
  | completed (r : RunOutcome)
deriving DecidableEq, Repr

/-- Translation of `Updater.Update` (src/pkg/host/updater.go lines 54-60):
index the server map, call `GetHostsFn` with the flags exactly as given —
no check that the id is registered nor that the required flags are present
— wrap a returned error, otherwise run `updateHostsFile`.  A `none`
function is Go's nil function value: calling it panics. -/
def update (u : Updater) (server : String) (flags : List (String × String))
    (readErr : Option String) (parseErrs : List String)
    (initial : Hostlist) : UpdateOutcome :=
  match (mapIndex u.servers server).getHostsFn with
  | none => .panicked
  | some f =>
    match f flags with
    | .error e => .failed ("could not update.... " ++ e)
    | .ok hosts =>
      .completed (updaterUpdateHostsFile readErr parseErrs initial hosts)

/-- A concrete EdgeOS-like provider (id and required flags as registered
by `edgeos.Provider()` in src/internal/edgeos/edgeos.go), with a stubbed
hosts function, used to exercise `update` on concrete inputs. -/
def edgeosProvider : ServerProvider :=
  ⟨"edgeos",
    [("address", "The address of the EdgeOS device"),
      ("username", "The username to use"),
      ("password", "The password to use")],
    [], some (fun _ => Except.ok [("host-a", "10.0.0.1")])⟩

lemma flip_self_of_enabled {x : Hostname} (hx : x.enabled = true) :
    ({ x with enabled := true } : Hostname) = x := by
  cases x
  simp_all

lemma flip_ne_of_disabled {a b : Hostname} (hb : b.enabled = false) :
    ({ a with enabled := true } : Hostname) ≠ b := by
  intro h
  have := congrArg Hostname.enabled h
  simp [hb] at this

lemma removeIndexOf_cons_self (t : Hostlist) (e : Hostname) :
    remove (e :: t) (indexOf (e :: t) e) = t := by
  simp [remove, indexOf, List.findIdx_cons]

lemma removeIndexOf_cons_ne {x e : Hostname} (t : Hostlist) (hne : x ≠ e) :
    remove (x :: t) (indexOf (x :: t) e) = x :: remove t (indexOf t e) := by
  simp [remove, indexOf, List.findIdx_cons, hne]

lemma enable_cons (x : Hostname) (t : Hostlist) (e : Hostname) :
    enable (x :: t) e =
      (if x = e then { x with enabled := true } else x) :: enable t e := rfl

lemma enable_eq_self {h : Hostlist} {e : Hostname} (hmem : ∀ y ∈ h, y ≠ e) :
    enable h e = h := by
  induction h with
  | nil => rfl
  | cons x t ih =>
    rw [enable_cons, if_neg (hmem x (by simp)), ih]
    intro y hy
    exact hmem y (by simp [hy])

lemma scan_foldl_split (domain : String) (L : List Hostname) :
    ∀ (h : Hostlist) (f : Bool),
      L.foldl (scanStep domain) (h, f) =
        (applyOps domain L h,
          f || L.any fun e => toLowerStr e.domain = toLowerStr domain) := by
  induction L with
  | nil => intro h f; simp [applyOps]
  | cons e L ih =>
    intro h f
    by_cases hm : toLowerStr e.domain = toLowerStr domain
    · by_cases he : e.enabled
      · simp [scanStep, hm, he, ih, applyOps, List.foldl_cons, act]
      · simp [scanStep, hm, he, ih, applyOps, List.foldl_cons, act]
    · simp [scanStep, hm, ih, applyOps, List.foldl_cons, act]

lemma applyOps_cons_head (domain : String) (L : List Hostname) :
    ∀ (h : Hostlist) (x : Hostname),
      (∀ e ∈ L,
        (toLowerStr e.domain = toLowerStr domain ∧ e.enabled = true) ∨ x ≠ e) →
      applyOps domain L (x :: h) = x :: applyOps domain L h := by
  induction L with
  | nil => intro h x _; rfl
  | cons e L ih =>
    intro h x hcond
    have hx := hcond e (by simp)
    have hrest : ∀ e ∈ L,
        (toLowerStr e.domain = toLowerStr domain ∧ e.enabled = true) ∨ x ≠ e :=
      fun e he => hcond e (by simp [he])
    show applyOps domain L (act domain (x :: h) e) =
      x :: applyOps domain L (act domain h e)
    by_cases hm : toLowerStr e.domain = toLowerStr domain
    · by_cases he : e.enabled
      · simp only [act, if_pos hm, he]
        simpa using ih (h := h) x hrest
      · have hne : x ≠ e := by
          rcases hx with ⟨_, h2⟩ | h2
          · rw [h2] at he; exact absurd rfl he
          · exact h2
        simp only [act, if_pos hm, he, Bool.not_false, if_pos rfl]
        rw [enable_cons, if_neg hne]
        exact ih (enable h e) x hrest
    · have hne : x ≠ e := by
        rcases hx with ⟨h1, _⟩ | h2
        · exact absurd h1 hm
        · exact h2
      simp only [act, if_neg hm]
      rw [removeIndexOf_cons_ne _ hne]
      exact ih (remove h (indexOf h e)) x hrest

lemma removeIndexOf_map (f : Hostname → Hostname) {e : Hostname}
    (hfe : f e = e) (hinj : ∀ y, f y = e → y = e) :
    ∀ h : Hostlist,
      remove (h.map f) (indexOf (h.map f) e) =
        (remove h (indexOf h e)).map f := by
  intro h
  induction h with
  | nil => rfl
  | cons x t ih =>
    by_cases hx : x = e
    · subst hx
      rw [List.map_cons, hfe, removeIndexOf_cons_self, removeIndexOf_cons_self]
    · have hfx : f x ≠ e := fun hc => hx (hinj x hc)
      rw [List.map_cons, removeIndexOf_cons_ne _ hfx,
        removeIndexOf_cons_ne _ hx, List.map_cons, ih]

lemma enable_enable_comm {x e : Hostname} (hx : x.enabled = false)
    (he : e.enabled = false) (h : Hostlist) :
    enable (enable h x) e = enable (enable h e) x := by
  by_cases hxe : x = e
  · subst hxe; rfl
  · unfold enable
    rw [List.map_map, List.map_map]
    apply List.map_congr_left
    intro y _
    simp only [Function.comp]
    by_cases hyx : y = x
    · subst hyx
      simp [hxe, flip_ne_of_disabled he]
    · by_cases hye : y = e
      · subst hye
        simp [hyx, flip_ne_of_disabled hx]
      · simp [hyx, hye]

lemma applyOps_enable_comm (domain : String) {x : Hostname}
    (hm : toLowerStr x.domain = toLowerStr domain) (hx : x.enabled = false) :
    ∀ (L : List Hostname) (h : Hostlist),
      applyOps domain L (enable h x) = enable (applyOps domain L h) x := by
  intro L
  induction L with
  | nil => intro h; rfl
  | cons e L ih =>
    intro h
    show applyOps domain L (act domain (enable h x) e) =
      enable (applyOps domain L (act domain h e)) x
    have key : act domain (enable h x) e = enable (act domain h e) x := by
      by_cases hme : toLowerStr e.domain = toLowerStr domain
      · by_cases hee : e.enabled
        · simp [act, hme, hee]
        · simp only [act, if_pos hme, hee, Bool.not_false, if_pos]
          exact enable_enable_comm hx (by simpa using hee) h
      · have hex : e ≠ x := by
          intro hc; rw [hc] at hme; exact hme hm
        have hfe : (if e = x then ({ e with enabled := true } : Hostname)
            else e) = e := if_neg hex
        have hinj : ∀ y,
            (if y = x then ({ y with enabled := true } : Hostname) else y) = e →
            y = e := by
          intro y hy
          by_cases hyx : y = x
          · subst hyx
            rw [if_pos rfl] at hy
            exfalso
            apply hme
            have hd : y.domain = e.domain := by
              have := congrArg Hostname.domain hy
              simpa using this
            rw [← hd]
            exact hm
          · rwa [if_neg hyx] at hy
        simp only [act, if_neg hme]
        have := removeIndexOf_map
          (fun y => if y = x then ({ y with enabled := true } : Hostname) else y)
          hfe hinj h
        simpa [enable] using this
    rw [key]
    exact ih (act domain h e)

lemma closedList_cons_stale {ip : Addr} {domain : String} {x : Hostname}
    (t : Hostlist) (hst : staleFor ip domain x = true) :
    closedList (x :: t) ip domain = closedList t ip domain := by
  simp [closedList, hst]

lemma closedList_cons_keep {ip : Addr} {domain : String} {x : Hostname}
    (t : Hostlist) (hst : staleFor ip domain x = false) :
    closedList (x :: t) ip domain =
      flipIfMatches ip domain x :: closedList t ip domain := by
  simp [closedList, hst]

lemma closedList_mem {h : Hostlist} {ip : Addr} {domain : String}
    {y : Hostname} (hy : y ∈ closedList h ip domain) :
    y.enabled = true ∨ y.ip ≠ ip := by
  unfold closedList at hy
  rcases List.mem_map.mp hy with ⟨f, hf, rfl⟩
  have hkeep := List.of_mem_filter hf
  by_cases hip : f.ip = ip
  · left
    have hname : toLowerStr f.domain = toLowerStr domain := by
      by_contra hne
      have : staleFor ip domain f = true := by simp [staleFor, hip, hne]
      rw [this] at hkeep
      simp at hkeep
    simp [flipIfMatches, hip, hname]
  · right
    have : flipIfMatches ip domain f = f :=
      if_neg (fun hc => hip hc.1)
    rw [this]
    exact hip

lemma applyOps_filterByIP (ip : Addr) (domain : String) :
    ∀ h : Hostlist, applyOps domain (filterByIP h ip) h = closedList h ip domain := by
  intro h
  induction h with
  | nil => rfl
  | cons x t ih =>
    by_cases hip : x.ip = ip
    · have hfil : filterByIP (x :: t) ip = x :: filterByIP t ip := by
        simp [filterByIP, hip]
      by_cases hm : toLowerStr x.domain = toLowerStr domain
      · have hstale : staleFor ip domain x = false := by simp [staleFor, hm]
        by_cases he : x.enabled
        · rw [hfil]
          show applyOps domain (filterByIP t ip) (act domain (x :: t) x) = _
          have hact : act domain (x :: t) x = x :: t := by simp [act, hm, he]
          rw [hact, applyOps_cons_head domain _ t x ?hd, ih,
            closedList_cons_keep t hstale]
          · have : flipIfMatches ip domain x = x := by
              rw [flipIfMatches, if_pos ⟨hip, hm⟩, flip_self_of_enabled he]
            rw [this]
          case hd =>
            intro e _
            by_cases hex : x = e
            · left
              rw [← hex]
              exact ⟨hm, he⟩
            · right; exact hex
        · have he' : x.enabled = false := by simpa using he
          rw [hfil]
          show applyOps domain (filterByIP t ip) (act domain (x :: t) x) = _
          have hact : act domain (x :: t) x =
              ({ x with enabled := true } : Hostname) :: enable t x := by
            simp only [act, if_pos hm, he', Bool.not_false, if_pos]
            rw [enable_cons, if_pos rfl]
          rw [hact, applyOps_cons_head domain _ (enable t x) _ ?hd2,
            applyOps_enable_comm domain hm he' _ t, ih]
          · have hnox : ∀ y ∈ closedList t ip domain, y ≠ x := by
              intro y hy hc
              rcases closedList_mem hy with h1 | h1
              · rw [hc, he'] at h1; simp at h1
              · rw [hc] at h1; exact h1 hip
            rw [enable_eq_self hnox, closedList_cons_keep t hstale]
            have : flipIfMatches ip domain x =
                ({ x with enabled := true } : Hostname) := by
              rw [flipIfMatches, if_pos ⟨hip, hm⟩]
            rw [this]
          case hd2 =>
            intro e _
            by_cases hex : ({ x with enabled := true } : Hostname) = e
            · left
              rw [← hex]
              exact ⟨hm, rfl⟩
            · right; exact hex
      · have hstale : staleFor ip domain x = true := by simp [staleFor, hip, hm]
        rw [hfil]
        show applyOps domain (filterByIP t ip) (act domain (x :: t) x) = _
        have hact : act domain (x :: t) x = t := by
          rw [act, if_neg hm, removeIndexOf_cons_self]
        rw [hact, ih, closedList_cons_stale t hstale]
    · have hfil : filterByIP (x :: t) ip = filterByIP t ip := by
        simp [filterByIP, hip]
      have hstale : staleFor ip domain x = false := by simp [staleFor, hip]
      rw [hfil]
      show applyOps domain (filterByIP t ip) (x :: t) = _
      rw [applyOps_cons_head domain _ t x ?hd3, ih,
        closedList_cons_keep t hstale]
      · have : flipIfMatches ip domain x = x :=
          if_neg (fun hc => hip hc.1)
        rw [this]
      case hd3 =>
        intro e he
        right
        intro hc
        have : e.ip = ip := by
          have := List.of_mem_filter he
          simpa using this
        rw [← hc] at this
        exact hip this

lemma any_filterByIP (h : Hostlist) (ip : Addr) (domain : String) :
    ((filterByIP h ip).any fun e => toLowerStr e.domain = toLowerStr domain) =
      h.any (matchesPair ip domain) := by
  induction h with
  | nil => rfl
  | cons x t ih =>
    by_cases hip : x.ip = ip
    · simp [filterByIP, hip, matchesPair, ih, List.filter_cons]
      rw [← ih]
      simp [filterByIP]
    · simp [filterByIP, hip, matchesPair, List.filter_cons]
      rw [← ih]
      simp [filterByIP]

lemma removeHosts_closed (h : Hostlist) (ip : Addr) (domain : String) :
    removeHostsThatMatchIPAndNotDomain h ip domain =
      (closedList h ip domain, h.any (matchesPair ip domain)) := by
  unfold removeHostsThatMatchIPAndNotDomain
  by_cases hc : containsIP h ip
  · rw [if_pos hc, scan_foldl_split, applyOps_filterByIP, Bool.false_or,
      any_filterByIP]
  · rw [if_neg hc]
    have hall : ∀ e ∈ h, e.ip ≠ ip := by
      intro e he hc2
      apply hc
      simp only [containsIP, List.any_eq_true]
      exact ⟨e, he, by simp [hc2]⟩
    have h1 : closedList h ip domain = h := by
      induction h with
      | nil => rfl
      | cons x t iht =>
        have hx := hall x (by simp)
        rw [closedList_cons_keep t (by simp [staleFor, hx])]
        rw [iht ?_ ?_]
        · have : flipIfMatches ip domain x = x :=
            if_neg (fun hcc => hx hcc.1)
          rw [this]
        · intro hcc
          apply hc
          simp only [containsIP, List.any_eq_true] at hcc ⊢
          rcases hcc with ⟨e, he, hee⟩
          exact ⟨e, by simp [he], hee⟩
        · intro e he
          exact hall e (by simp [he])
    have h2 : h.any (matchesPair ip domain) = false := by
      rw [List.any_eq_false]
      intro e he hme
      rw [matchesPair] at hme
      have : e.ip = ip := by
        simp at hme
        exact hme.1
      exact hall e he this
    rw [h1, h2]

lemma updateHostsPair_eq (h : Hostlist) {n : String} (a : Addr) (hn : n ≠ "") :
    updateHostsPair h (n, a) =
      if h.any (matchesPair a n) then closedList h a n
      else closedList h a n ++ [⟨n, a, true⟩] := by
  rw [updateHostsPair]
  simp only [if_neg hn, removeHosts_closed]
  by_cases hf : h.any (matchesPair a n) <;> simp [hf, add]

lemma filter_closedList {q : Hostname → Bool} {a : Addr}
    (hq : ∀ e : Hostname, e.ip = a → q e = false) (h : Hostlist) (n : String) :
    (closedList h a n).filter q = h.filter q := by
  induction h with
  | nil => rfl
  | cons x t ih =>
    by_cases hst : staleFor a n x = true
    · have hx : x.ip = a := by
        rw [staleFor] at hst
        simp at hst
        exact hst.1
      rw [closedList_cons_stale t hst, ih, List.filter_cons, hq x hx]
      simp
    · rw [closedList_cons_keep t (by simpa using hst), List.filter_cons,
        List.filter_cons, ih]
      by_cases hm : x.ip = a ∧ toLowerStr x.domain = toLowerStr n
      · have h1 : flipIfMatches a n x = { x with enabled := true } := if_pos hm
        have h2 : q x = false := hq x hm.1
        have h3 : q { x with enabled := true } = false := hq _ hm.1
        rw [h1, h2, h3]
        simp
      · have h1 : flipIfMatches a n x = x := if_neg hm
        rw [h1]

lemma updateHostsPair_filter {q : Hostname → Bool} {a : Addr}
    (hq : ∀ e : Hostname, e.ip = a → q e = false) (h : Hostlist) (n : String) :
    (updateHostsPair h (n, a)).filter q = h.filter q := by
  by_cases hn : n = ""
  · subst hn
    rw [updateHostsPair, if_pos rfl]
  · rw [updateHostsPair_eq h a hn]
    by_cases hf : h.any (matchesPair a n)
    · rw [if_pos hf, filter_closedList hq]
    · rw [if_neg hf, List.filter_append, filter_closedList hq]
      have : q ⟨n, a, true⟩ = false := hq _ rfl
      simp [this]

lemma reconcile_filter {q : Hostname → Bool} :
    ∀ (M : List (String × Addr)),
      (∀ p ∈ M, p.1 = "" ∨ ∀ e : Hostname, e.ip = p.2 → q e = false) →
      ∀ T : Hostlist, (reconcile M T).filter q = T.filter q := by
  intro M
  induction M with
  | nil => intro _ T; rfl
  | cons p M ih =>
    intro hq T
    show (reconcile M (updateHostsPair T p)).filter q = T.filter q
    rw [ih (fun r hr => hq r (by simp [hr])) (updateHostsPair T p)]
    rcases hq p (by simp) with h1 | h1
    · obtain ⟨n, a⟩ := p
      simp only at h1
      subst h1
      rw [updateHostsPair, if_pos rfl]
    · obtain ⟨n, a⟩ := p
      exact updateHostsPair_filter h1 T n

lemma closedList_filter_ip (h : Hostlist) (a : Addr) (n : String) :
    (closedList h a n).filter (fun e => e.ip = a) =
      (h.filter (matchesPair a n)).map (fun e => { e with enabled := true }) := by
  induction h with
  | nil => rfl
  | cons x t ih =>
    by_cases hip : x.ip = a
    · by_cases hm : toLowerStr x.domain = toLowerStr n
      · have hst : staleFor a n x = false := by simp [staleFor, hm]
        rw [closedList_cons_keep t hst, List.filter_cons, List.filter_cons]
        have h1 : flipIfMatches a n x = { x with enabled := true } :=
          if_pos ⟨hip, hm⟩
        have h2 : matchesPair a n x = true := by simp [matchesPair, hip, hm]
        rw [h1, h2]
        simp [hip, ih]
      · have hst : staleFor a n x = true := by simp [staleFor, hip, hm]
        rw [closedList_cons_stale t hst, List.filter_cons]
        have h2 : matchesPair a n x = false := by simp [matchesPair, hm]
        rw [h2, ih]
        simp
    · have hst : staleFor a n x = false := by simp [staleFor, hip]
      rw [closedList_cons_keep t hst, List.filter_cons, List.filter_cons]
      have h1 : flipIfMatches a n x = x := if_neg (fun hc => hip hc.1)
      have h2 : matchesPair a n x = false := by simp [matchesPair, hip]
      rw [h1, h2, ih]
      simp [hip]

lemma updateHostsPair_filter_ip (h : Hostlist) {n : String} (a : Addr)
    (hn : n ≠ "") :
    (updateHostsPair h (n, a)).filter (fun e => e.ip = a) =
      if h.any (matchesPair a n) then
        (h.filter (matchesPair a n)).map (fun e => { e with enabled := true })
      else [⟨n, a, true⟩] := by
  rw [updateHostsPair_eq h a hn]
  by_cases hf : h.any (matchesPair a n)
  · rw [if_pos hf, if_pos hf, closedList_filter_ip]
  · rw [if_neg hf, if_neg hf, List.filter_append, closedList_filter_ip]
    have hnil : h.filter (matchesPair a n) = [] := by
      rw [List.filter_eq_nil_iff]
      intro e he hme
      exact hf (List.any_eq_true.mpr ⟨e, he, hme⟩)
    rw [hnil]
    simp

lemma any_congr_of_filter_eq {q : Hostname → Bool} {l₁ l₂ : Hostlist}
    (h : l₁.filter q = l₂.filter q) : l₁.any q = l₂.any q := by
  have key : ∀ l : Hostlist, (l.any q = true) ↔ ∃ e, e ∈ l.filter q := by
    intro l
    simp [List.any_eq_true, List.mem_filter]
  rw [Bool.eq_iff_iff, key, key, h]

lemma reconcile_filter_pair {M : List (String × Addr)} {n : String} {a : Addr}
    (hnd : (M.map Prod.snd).Nodup) (hmem : (n, a) ∈ M) (hn : n ≠ "")
    (T : Hostlist) :
    (reconcile M T).filter (fun e => e.ip = a) =
      if T.any (matchesPair a n) then
        (T.filter (matchesPair a n)).map (fun e => { e with enabled := true })
      else [⟨n, a, true⟩] := by
  induction M generalizing T with
  | nil => exact absurd hmem (by simp)
  | cons p M ih =>
    rw [List.map_cons, List.nodup_cons] at hnd
    rcases List.mem_cons.mp hmem with hp | hp
    · subst hp
      show (reconcile M (updateHostsPair T (n, a))).filter (fun e => e.ip = a) = _
      have hframe : ∀ p ∈ M, p.1 = "" ∨
          ∀ e : Hostname, e.ip = p.2 → decide (e.ip = a) = false := by
        intro p hp
        right
        intro e he
        have hsnd : p.2 ∈ M.map Prod.snd := List.mem_map_of_mem Prod.snd hp
        have : p.2 ≠ a := by
          intro hc
          rw [hc] at hsnd
          exact hnd.1 hsnd
        simp [he, this]
      rw [reconcile_filter M hframe (updateHostsPair T (n, a)),
        updateHostsPair_filter_ip T a hn]
    · have hpa : p.2 ≠ a := by
        intro hc
        exact hnd.1 (hc ▸ List.mem_map_of_mem Prod.snd hp)
      show (reconcile M (updateHostsPair T p)).filter (fun e => e.ip = a) = _
      rw [ih hnd.2 hp (updateHostsPair T p)]
      obtain ⟨m, b⟩ := p
      have hqb : ∀ e : Hostname, e.ip = b → matchesPair a n e = false := by
        intro e he
        simp only [matchesPair]
        simp [he, hpa]
      have hfil := updateHostsPair_filter hqb T m
      rw [hfil, any_congr_of_filter_eq hfil]

/-- A pair is stable in a table: either the name is empty (the pair is
skipped), or some entry carries its address and every entry carrying its
address has a case-insensitively equal name and is enabled. -/
def stablePair (h : Hostlist) (p : String × Addr) : Prop :=
  p.1 = "" ∨ ((h.filter fun e => e.ip = p.2) ≠ [] ∧
    ∀ e ∈ h.filter fun e => e.ip = p.2,
      toLowerStr e.domain = toLowerStr p.1 ∧ e.enabled = true)

lemma closedList_eq_self_of_stable {h : Hostlist} {a : Addr} {n : String}
    (hall : ∀ e ∈ h, e.ip = a →
      toLowerStr e.domain = toLowerStr n ∧ e.enabled = true) :
    closedList h a n = h := by
  induction h with
  | nil => rfl
  | cons x t ih =>
    have hrest : ∀ e ∈ t, e.ip = a →
        toLowerStr e.domain = toLowerStr n ∧ e.enabled = true :=
      fun e he => hall e (by simp [he])
    by_cases hip : x.ip = a
    · rcases hall x (by simp) hip with ⟨hm, he⟩
      rw [closedList_cons_keep t (by simp [staleFor, hm])]
      have : flipIfMatches a n x = x := by
        rw [flipIfMatches, if_pos ⟨hip, hm⟩, flip_self_of_enabled he]
      rw [this, ih hrest]
    · rw [closedList_cons_keep t (by simp [staleFor, hip])]
      have : flipIfMatches a n x = x := if_neg (fun hc => hip hc.1)
      rw [this, ih hrest]

lemma stable_step {h : Hostlist} {p : String × Addr} (hst : stablePair h p) :
    updateHostsPair h p = h := by
  obtain ⟨n, a⟩ := p
  by_cases hn : n = ""
  · simp [updateHostsPair, hn]
  · rcases hst with h1 | ⟨hne, hall⟩
    · exact absurd h1 hn
    · have hall' : ∀ e ∈ h, e.ip = a →
          toLowerStr e.domain = toLowerStr n ∧ e.enabled = true := by
        intro e he hip
        exact hall e (List.mem_filter.mpr ⟨he, by simp [hip]⟩)
      have hany : h.any (matchesPair a n) = true := by
        obtain ⟨e, he⟩ := List.exists_mem_of_ne_nil _ hne
        rcases List.mem_filter.mp he with ⟨hmem, hip⟩
        have hip' : e.ip = a := by simpa using hip
        rcases hall' e hmem hip' with ⟨hm, _⟩
        exact List.any_eq_true.mpr ⟨e, hmem, by simp [matchesPair, hip', hm]⟩
      rw [updateHostsPair_eq h a hn, if_pos hany,
        closedList_eq_self_of_stable hall']

lemma stable_after_step (h : Hostlist) (p : String × Addr) :
    stablePair (updateHostsPair h p) p := by
  obtain ⟨n, a⟩ := p
  by_cases hn : n = ""
  · left; exact hn
  · right
    have hfil := updateHostsPair_filter_ip h a hn
    constructor
    · rw [hfil]
      by_cases hf : h.any (matchesPair a n)
      · rw [if_pos hf]
        have hne : h.filter (matchesPair a n) ≠ [] := by
          intro hc
          rcases List.any_eq_true.mp hf with ⟨e, he, hme⟩
          have : e ∈ h.filter (matchesPair a n) := List.mem_filter.mpr ⟨he, hme⟩
          rw [hc] at this
          simp at this
        simpa using hne
      · rw [if_neg hf]
        simp
    · intro e he
      rw [hfil] at he
      by_cases hf : h.any (matchesPair a n)
      · rw [if_pos hf] at he
        rcases List.mem_map.mp he with ⟨f, hf2, rfl⟩
        rcases List.mem_filter.mp hf2 with ⟨_, hmf⟩
        have hm : f.ip = a ∧ toLowerStr f.domain = toLowerStr n := by
          simpa [matchesPair] using hmf
        exact ⟨hm.2, rfl⟩
      · rw [if_neg hf] at he
        simp at he
        rw [he]
        exact ⟨rfl, rfl⟩

lemma stable_preserved_step {h : Hostlist} {n : String} {a : Addr}
    (hst : stablePair h (n, a)) {p : String × Addr}
    (hpa : p.2 ≠ a) : stablePair (updateHostsPair h p) (n, a) := by
  obtain ⟨m, b⟩ := p
  have hq : ∀ e : Hostname, e.ip = b → decide (e.ip = a) = false := by
    intro e he
    simp only at hpa
    simp [he, hpa]
  have hfil := updateHostsPair_filter hq h m
  rcases hst with h1 | ⟨hne, hall⟩
  · left; exact h1
  · right
    refine ⟨?_, ?_⟩
    · show (List.filter _ _) ≠ []
      rw [hfil]
      exact hne
    · intro e he
      rw [hfil] at he
      exact hall e he

lemma stable_reconcile_preserved {n : String} {a : Addr} :
    ∀ (M : List (String × Addr)), (∀ p ∈ M, p.2 ≠ a) →
      ∀ {h : Hostlist}, stablePair h (n, a) →
      stablePair (reconcile M h) (n, a) := by
  intro M
  induction M with
  | nil => intro _ h hst; exact hst
  | cons p M ih =>
    intro hM h hst
    show stablePair (reconcile M (updateHostsPair h p)) (n, a)
    exact ih (fun q hq => hM q (by simp [hq]))
      (stable_preserved_step hst (hM p (by simp)))

lemma reconcile_stable_all {M : List (String × Addr)}
    (hnd : (M.map Prod.snd).Nodup) (T : Hostlist) :
    ∀ p ∈ M, stablePair (reconcile M T) p := by
  induction M generalizing T with
  | nil => simp
  | cons q M ih =>
    rw [List.map_cons, List.nodup_cons] at hnd
    intro p hp
    rcases List.mem_cons.mp hp with h1 | h1
    · subst h1
      show stablePair (reconcile M (updateHostsPair T p)) p
      obtain ⟨n, a⟩ := p
      apply stable_reconcile_preserved M ?_ (stable_after_step T (n, a))
      intro r hr hc
      have : r.2 ∈ M.map Prod.snd := List.mem_map_of_mem Prod.snd hr
      rw [hc] at this
      exact hnd.1 this
    · exact ih hnd.2 (updateHostsPair T q) p h1

lemma reconcile_of_all_stable :
    ∀ (M : List (String × Addr)) (h : Hostlist),
      (∀ p ∈ M, stablePair h p) → reconcile M h = h := by
  intro M
  induction M with
  | nil => intro h _; rfl
  | cons p M ih =>
    intro h hall
    show reconcile M (updateHostsPair h p) = h
    rw [stable_step (hall p (by simp))]
    exact ih h (fun q hq => hall q (by simp [hq]))

lemma toLowerStr_eq_nil {s : String} (h : toLowerStr s = "") : s = "" := by
  obtain ⟨d⟩ := s
  unfold toLowerStr at h
  have h2 : d.map Char.toLower = [] := congrArg String.data h
  have hd : d = [] := List.map_eq_nil_iff.mp h2
  rw [hd]

lemma mem_updateHostsPair_disabled {h : Hostlist} {p : String × Addr}
    {e : Hostname} (he : e ∈ updateHostsPair h p) (hd : e.enabled = false) :
    e ∈ h := by
  obtain ⟨n, a⟩ := p
  by_cases hn : n = ""
  · rwa [updateHostsPair, if_pos hn] at he
  · rw [updateHostsPair_eq h a hn] at he
    have hmem : e ∈ closedList h a n ∨ e = (⟨n, a, true⟩ : Hostname) := by
      by_cases hf : h.any (matchesPair a n)
      · rw [if_pos hf] at he
        exact Or.inl he
      · rw [if_neg hf] at he
        rcases List.mem_append.mp he with h1 | h1
        · exact Or.inl h1
        · right; simpa using h1
    rcases hmem with h1 | h1
    · unfold closedList at h1
      rcases List.mem_map.mp h1 with ⟨f, hf2, hfe⟩
      have hfh : f ∈ h := (List.mem_filter.mp hf2).1
      by_cases hm : f.ip = a ∧ toLowerStr f.domain = toLowerStr n
      · exfalso
        rw [← hfe, flipIfMatches, if_pos hm] at hd
        simp at hd
      · rw [← hfe, flipIfMatches, if_neg hm]
        exact hfh
    · exfalso
      rw [h1] at hd
      simp at hd

lemma mem_reconcile_disabled {M : List (String × Addr)} :
    ∀ {T : Hostlist} {e : Hostname},
      e ∈ reconcile M T → e.enabled = false → e ∈ T := by
  induction M with
  | nil => intro T e he _; exact he
  | cons p M ih =>
    intro T e he hd
    exact mem_updateHostsPair_disabled (ih he hd) hd

lemma mem_updateHostsPair_empty_domain {h : Hostlist} {p : String × Addr}
    {e : Hostname} (he : e ∈ updateHostsPair h p) (hd : e.domain = "") :
    e ∈ h := by
  obtain ⟨n, a⟩ := p
  by_cases hn : n = ""
  · rwa [updateHostsPair, if_pos hn] at he
  · rw [updateHostsPair_eq h a hn] at he
    have hmem : e ∈ closedList h a n ∨ e = (⟨n, a, true⟩ : Hostname) := by
      by_cases hf : h.any (matchesPair a n)
      · rw [if_pos hf] at he
        exact Or.inl he
      · rw [if_neg hf] at he
        rcases List.mem_append.mp he with h1 | h1
        · exact Or.inl h1
        · right; simpa using h1
    rcases hmem with h1 | h1
    · unfold closedList at h1
      rcases List.mem_map.mp h1 with ⟨f, hf2, hfe⟩
      have hfh : f ∈ h := (List.mem_filter.mp hf2).1
      by_cases hm : f.ip = a ∧ toLowerStr f.domain = toLowerStr n
      · exfalso
        have hdf : f.domain = "" := by
          rw [← hfe, flipIfMatches, if_pos hm] at hd
          simpa using hd
        apply hn
        apply toLowerStr_eq_nil
        rw [← hm.2, hdf]
        rfl
      · rw [← hfe, flipIfMatches, if_neg hm]
        exact hfh
    · exfalso
      apply hn
      rw [h1] at hd
      simpa using hd

lemma mem_reconcile_empty_domain {M : List (String × Addr)} :
    ∀ {T : Hostlist} {e : Hostname},
      e ∈ reconcile M T → e.domain = "" → e ∈ T := by
  induction M with
  | nil => intro T e he _; exact he
  | cons p M ih =>
    intro T e he hd
    exact mem_updateHostsPair_empty_domain (ih he hd) hd

lemma count_filter_ip (l : Hostlist) (e : Hostname) :
    l.count e = (l.filter fun x => x.ip = e.ip).count e := by
  induction l with
  | nil => rfl
  | cons x t ih =>
    rw [List.filter_cons]
    by_cases hip : x.ip = e.ip
    · rw [if_pos (by simp [hip] : decide (x.ip = e.ip) = true)]
      rw [List.count_cons, List.count_cons, ih]
    · rw [if_neg (by simp [hip] : ¬decide (x.ip = e.ip) = true)]
      rw [List.count_cons, ih]
      have hx : (x == e) = false := by
        simp only [beq_eq_false_iff_ne, ne_eq]
        intro hc
        rw [hc] at hip
        exact hip rfl
      rw [hx]
      simp

lemma reconcile_filter_ip_congr {M₁ M₂ : List (String × Addr)}
    (hperm : M₁.Perm M₂) (hnd : (M₁.map Prod.snd).Nodup) (T : Hostlist)
    (v : Addr) :
    (reconcile M₁ T).filter (fun e => e.ip = v) =
      (reconcile M₂ T).filter (fun e => e.ip = v) := by
  have hnd₂ : (M₂.map Prod.snd).Nodup := (hperm.map Prod.snd).nodup_iff.mp hnd
  by_cases hcov : ∃ p ∈ M₁, p.2 = v ∧ p.1 ≠ ""
  · obtain ⟨⟨n, b⟩, hp, hb, hn⟩ := hcov
    simp only at hb hn
    subst hb
    rw [reconcile_filter_pair hnd hp hn T,
      reconcile_filter_pair hnd₂ (hperm.mem_iff.mp hp) hn T]
  · have hnames : ∀ p ∈ M₁, p.2 = v → p.1 = "" := by
      intro p hp hpv
      by_contra hne
      exact hcov ⟨p, hp, hpv, hne⟩
    have h₁ : ∀ p ∈ M₁, p.1 = "" ∨
        ∀ e : Hostname, e.ip = p.2 → decide (e.ip = v) = false := by
      intro p hp
      by_cases hpv : p.2 = v
      · left; exact hnames p hp hpv
      · right; intro e he; simp [he, hpv]
    have h₂ : ∀ p ∈ M₂, p.1 = "" ∨
        ∀ e : Hostname, e.ip = p.2 → decide (e.ip = v) = false := by
      intro p hp
      exact h₁ p (hperm.mem_iff.mpr hp)
    rw [reconcile_filter M₁ h₁ T, reconcile_filter M₂ h₂ T]

example :
    reconcile [("host-a", "10.0.0.1")] [⟨"host-b", "10.0.0.2", true⟩] =
      [⟨"host-b", "10.0.0.2", true⟩, ⟨"host-a", "10.0.0.1", true⟩] := by
  decide

example :
    reconcile [("Host-A", "10.0.0.1")] [⟨"host-a", "10.0.0.1", false⟩] =
      [⟨"host-a", "10.0.0.1", true⟩] := by
  decide

example :
    reconcile [("b", "1.1.1.1")]
        [⟨"a", "1.1.1.1", true⟩, ⟨"b", "1.1.1.1", true⟩] =
      [⟨"b", "1.1.1.1", true⟩] := by
  decide

example :
    reconcile [("x", "a"), ("y", "a"), ("w", "b")] [] =
      [⟨"y", "a", true⟩, ⟨"w", "b", true⟩] := by
  decide

example :
    reconcile [("x", "a"), ("y", "a"), ("w", "b")]
        (reconcile [("x", "a"), ("y", "a"), ("w", "b")] []) =
      [⟨"w", "b", true⟩, ⟨"y", "a", true⟩] := by
  decide

/-- Claim C1 counterexample: the claim as stated quantifies over every
Mapping pair and every matching Table entry, but when two Mapping pairs
share one address the entry matched (and re-enabled) by one pair is evicted
by the other pair, so it is not kept.  With Mapping
[("b", "1.1.1.1"), ("c", "1.1.1.1")] and Table [(b, 1.1.1.1, disabled)],
the entry matching the pair ("b", "1.1.1.1") is gone from the result. -/
theorem C1_counterexample :
    reconcile [("b", "1.1.1.1"), ("c", "1.1.1.1")] [⟨"b", "1.1.1.1", false⟩] =
      [⟨"c", "1.1.1.1", true⟩] ∧
    (⟨"b", "1.1.1.1", true⟩ : Hostname) ∉
      reconcile [("b", "1.1.1.1"), ("c", "1.1.1.1")]
        [⟨"b", "1.1.1.1", false⟩] ∧
    (⟨"b", "1.1.1.1", false⟩ : Hostname) ∉
      reconcile [("b", "1.1.1.1"), ("c", "1.1.1.1")]
        [⟨"b", "1.1.1.1", false⟩] :=
  ⟨by decide, by decide, by decide⟩

/-- Claim C1 (amended): for a Mapping whose pairs carry pairwise distinct
addresses and a pair (n, a) with non-empty name, if the Table has an entry
with address a whose name equals n case-insensitively, then after
reconciliation the entries at address a are exactly the originally matching
entries, in their original relative order, with their stored name casing
unaltered and their enabled flag set to true; no new entry is appended for
the pair. -/
theorem C1_reenable_on_match {M : List (String × Addr)} {n : String}
    {a : Addr} (T : Hostlist) (hnd : (M.map Prod.snd).Nodup)
    (hmem : (n, a) ∈ M) (hn : n ≠ "")
    (hex : T.any (matchesPair a n) = true) :
    (reconcile M T).filter (fun e => e.ip = a) =
      (T.filter (matchesPair a n)).map (fun e => { e with enabled := true }) := by
  rw [reconcile_filter_pair hnd hmem hn T, if_pos hex]

/-- Witness for C1: the spec's own re-enable example — Table
[(host-a, 10.0.0.1, disabled)], Mapping [("Host-A", 10.0.0.1)] gives
[(host-a, 10.0.0.1, enabled)]: casing preserved, flag flipped. -/
theorem C1_reenable_on_match_witness :
    (([("Host-A", "10.0.0.1")].map Prod.snd).Nodup) ∧
    (("Host-A", "10.0.0.1") ∈ ([("Host-A", "10.0.0.1")] : List (String × Addr))) ∧
    ("Host-A" : String) ≠ "" ∧
    ([⟨"host-a", "10.0.0.1", false⟩] : Hostlist).any
      (matchesPair "10.0.0.1" "Host-A") = true ∧
    (reconcile [("Host-A", "10.0.0.1")]
        [⟨"host-a", "10.0.0.1", false⟩]).filter (fun e => e.ip = "10.0.0.1") =
      (([⟨"host-a", "10.0.0.1", false⟩] : Hostlist).filter
        (matchesPair "10.0.0.1" "Host-A")).map
          (fun e => { e with enabled := true }) :=
  ⟨by decide, by decide, by decide, by decide,
    C1_reenable_on_match _ (by decide) (by decide) (by decide) (by decide)⟩

/-- Claim C2: every Table entry whose address appears nowhere in the
Mapping is left completely untouched by reconciliation — the subsequence of
such entries (each with its name, address and enabled flag) is exactly the
same before and after. -/
theorem C2_untouched_unrelated (M : List (String × Addr)) (T : Hostlist) :
    (reconcile M T).filter (fun e => !(M.any fun p => p.2 = e.ip)) =
      T.filter (fun e => !(M.any fun p => p.2 = e.ip)) := by
  apply reconcile_filter
  intro p hp
  right
  intro e he
  have hany : (M.any fun r => r.2 = e.ip) = true :=
    List.any_eq_true.mpr ⟨p, hp, by simp [he]⟩
  simp [hany]

/-- Claim C3 counterexample: with two Mapping pairs sharing one address and
a third pair in between, running reconciliation a second time on the
already-reconciled table changes the order of the table, so the result is
not identical to the first run's result. -/
theorem C3_counterexample :
    reconcile [("x", "10.0.0.1"), ("y", "10.0.0.1"), ("w", "10.0.0.2")]
        (reconcile [("x", "10.0.0.1"), ("y", "10.0.0.1"), ("w", "10.0.0.2")]
          []) ≠
      reconcile [("x", "10.0.0.1"), ("y", "10.0.0.1"), ("w", "10.0.0.2")]
        [] := by
  decide

/-- Claim C3 (amended): for every Mapping whose pairs carry pairwise
distinct addresses and every Table, reconciling a second time on the
already-reconciled table is the identity — the result equals the first
run's result exactly. -/
theorem C3_idempotent {M : List (String × Addr)} (T : Hostlist)
    (hnd : (M.map Prod.snd).Nodup) :
    reconcile M (reconcile M T) = reconcile M T :=
  reconcile_of_all_stable M _ (reconcile_stable_all hnd T)

/-- Witness for C3 at a concrete mapping with distinct addresses. -/
theorem C3_idempotent_witness :
    (([("host-a", "10.0.0.1"), ("host-b", "10.0.0.2")].map Prod.snd).Nodup) ∧
    reconcile [("host-a", "10.0.0.1"), ("host-b", "10.0.0.2")]
        (reconcile [("host-a", "10.0.0.1"), ("host-b", "10.0.0.2")]
          [⟨"old", "10.0.0.1", true⟩, ⟨"keep", "10.0.0.9", false⟩]) =
      reconcile [("host-a", "10.0.0.1"), ("host-b", "10.0.0.2")]
        [⟨"old", "10.0.0.1", true⟩, ⟨"keep", "10.0.0.9", false⟩] :=
  ⟨by decide, C3_idempotent _ (by decide)⟩

/-- Claim C4 counterexample: when two Mapping pairs share one address, the
entry appended for the first pair is evicted by the second, so the final
table holds no entry for the first pair at all.  With Mapping
[("b", "1.1.1.1"), ("c", "1.1.1.1")] and Table [], no (b, 1.1.1.1, enabled)
entry survives. -/
theorem C4_counterexample :
    reconcile [("b", "1.1.1.1"), ("c", "1.1.1.1")] [] =
      [⟨"c", "1.1.1.1", true⟩] ∧
    (⟨"b", "1.1.1.1", true⟩ : Hostname) ∉
      reconcile [("b", "1.1.1.1"), ("c", "1.1.1.1")] [] :=
  ⟨by decide, by decide⟩

/-- Claim C4 (amended): for a Mapping whose pairs carry pairwise distinct
addresses and a pair (n, a) with non-empty name such that no Table entry
has address a together with a case-insensitively equal name, after
reconciliation the entries at address a are exactly the single new entry
(n, a, enabled) — every pre-existing entry sharing the address is removed
and exactly one entry is appended. -/
theorem C4_evict_and_append {M : List (String × Addr)} {n : String}
    {a : Addr} (T : Hostlist) (hnd : (M.map Prod.snd).Nodup)
    (hmem : (n, a) ∈ M) (hn : n ≠ "")
    (hnone : T.any (matchesPair a n) = false) :
    (reconcile M T).filter (fun e => e.ip = a) = [⟨n, a, true⟩] := by
  rw [reconcile_filter_pair hnd hmem hn T, if_neg (by simp [hnone])]

/-- Witness for C4: the spec's stale-alias eviction example — Table
[(old-name, 10.0.0.1, enabled)], Mapping [("new-name", 10.0.0.1)] gives
[(new-name, 10.0.0.1, enabled)]. -/
theorem C4_evict_and_append_witness :
    (([("new-name", "10.0.0.1")].map Prod.snd).Nodup) ∧
    (("new-name", "10.0.0.1") ∈ ([("new-name", "10.0.0.1")] : List (String × Addr))) ∧
    ("new-name" : String) ≠ "" ∧
    ([⟨"old-name", "10.0.0.1", true⟩] : Hostlist).any
      (matchesPair "10.0.0.1" "new-name") = false ∧
    (reconcile [("new-name", "10.0.0.1")]
        [⟨"old-name", "10.0.0.1", true⟩]).filter (fun e => e.ip = "10.0.0.1") =
      [⟨"new-name", "10.0.0.1", true⟩] :=
  ⟨by decide, by decide, by decide, by decide,
    C4_evict_and_append _ (by decide) (by decide) (by decide) (by decide)⟩

/-- Claim C5 counterexample: even with pairwise distinct addresses the
final Table is not literally the same under two iteration orders — the two
fresh entries are appended in iteration order, so the resulting ordered
tables differ. -/
theorem C5_counterexample :
    reconcile [("x", "10.0.0.1"), ("y", "10.0.0.2")] [] ≠
      reconcile [("y", "10.0.0.2"), ("x", "10.0.0.1")] [] := by
  decide

/-- Claim C5 (amended): for a Mapping whose pairs carry pairwise distinct
addresses, the tables produced under any two iteration orders are
permutations of each other — they hold exactly the same entries with the
same multiplicities, differing only in the order of appends. -/
theorem C5_order_independent_up_to_permutation {M₁ M₂ : List (String × Addr)}
    (T : Hostlist) (hperm : M₁.Perm M₂) (hnd : (M₁.map Prod.snd).Nodup) :
    (reconcile M₁ T).Perm (reconcile M₂ T) := by
  rw [List.perm_iff_count]
  intro e
  rw [count_filter_ip (reconcile M₁ T) e, count_filter_ip (reconcile M₂ T) e,
    reconcile_filter_ip_congr hperm hnd T e.ip]

/-- Witness for C5 at a concrete pair of orders. -/
theorem C5_order_independent_witness :
    (([("host-a", "10.0.0.1"), ("host-b", "10.0.0.2")] :
        List (String × Addr)).Perm
      [("host-b", "10.0.0.2"), ("host-a", "10.0.0.1")]) ∧
    (([("host-a", "10.0.0.1"), ("host-b", "10.0.0.2")].map Prod.snd).Nodup) ∧
    (reconcile [("host-a", "10.0.0.1"), ("host-b", "10.0.0.2")]
        [⟨"old", "10.0.0.1", false⟩]).Perm
      (reconcile [("host-b", "10.0.0.2"), ("host-a", "10.0.0.1")]
        [⟨"old", "10.0.0.1", false⟩]) :=
  ⟨by decide, by decide,
    C5_order_independent_up_to_permutation _ (by decide) (by decide)⟩

/-- Claim C6: reconciliation never turns an enabled entry into a disabled
one — every disabled entry of the result already occurred, disabled, in the
input Table; and a disabled entry whose address appears nowhere in the
Mapping survives with its disabled flag intact. -/
theorem C6_enable_only_transitions (M : List (String × Addr)) (T : Hostlist) :
    (∀ e ∈ reconcile M T, e.enabled = false → e ∈ T) ∧
    (∀ e ∈ T, e.enabled = false → (∀ p ∈ M, p.2 ≠ e.ip) →
      e ∈ reconcile M T) := by
  constructor
  · intro e he hd
    exact mem_reconcile_disabled he hd
  · intro e he _ hnp
    have hq : ∀ p ∈ M, p.1 = "" ∨
        ∀ x : Hostname, x.ip = p.2 → decide (x = e) = false := by
      intro p hp
      right
      intro x hx
      simp only [decide_eq_false_iff_not]
      intro hxe
      subst hxe
      exact hnp p hp hx.symm
    have hfil := reconcile_filter M hq T
    have hmemf : e ∈ T.filter (fun x => decide (x = e)) :=
      List.mem_filter.mpr ⟨he, by simp⟩
    rw [← hfil] at hmemf
    exact (List.mem_filter.mp hmemf).1

/-- Witness for C6: a disabled entry at an unrelated address stays in the
table, still disabled, and every disabled entry of the result was already
in the input. -/
theorem C6_enable_only_transitions_witness :
    ((⟨"x", "10.0.0.2", false⟩ : Hostname) ∈
      ([⟨"x", "10.0.0.2", false⟩] : Hostlist)) ∧
    ((⟨"x", "10.0.0.2", false⟩ : Hostname) ∈
      reconcile [("host-a", "10.0.0.1")] [⟨"x", "10.0.0.2", false⟩]) :=
  ⟨(C6_enable_only_transitions [("host-a", "10.0.0.1")]
      [⟨"x", "10.0.0.2", false⟩]).1 (⟨"x", "10.0.0.2", false⟩ : Hostname)
      (by decide) rfl,
    (C6_enable_only_transitions [("host-a", "10.0.0.1")]
      [⟨"x", "10.0.0.2", false⟩]).2 (⟨"x", "10.0.0.2", false⟩ : Hostname)
      (by decide) rfl (by decide)⟩

/-- Claim C7: a Mapping pair with an empty name leaves the table exactly as
it was — the per-pair step is the identity — and reconciliation never
creates a Table entry with an empty name: any empty-named entry of the
result was already in the input Table. -/
theorem C7_empty_name_skip :
    (∀ (h : Hostlist) (a : Addr), updateHostsPair h ("", a) = h) ∧
    (∀ (M : List (String × Addr)) (T : Hostlist),
      ∀ e ∈ reconcile M T, e.domain = "" → e ∈ T) := by
  constructor
  · intro h a
    simp [updateHostsPair]
  · intro M T e he hd
    exact mem_reconcile_empty_domain he hd

/-- Witness for C7 at concrete inputs. -/
theorem C7_empty_name_skip_witness :
    updateHostsPair [⟨"host-b", "10.0.0.2", true⟩] ("", "10.0.0.1") =
      [⟨"host-b", "10.0.0.2", true⟩] ∧
    ((⟨"", "10.0.0.3", true⟩ : Hostname) ∈
      ([⟨"", "10.0.0.3", true⟩] : Hostlist)) :=
  ⟨C7_empty_name_skip.1 _ _,
    C7_empty_name_skip.2 [("host-a", "10.0.0.1")] [⟨"", "10.0.0.3", true⟩]
      (⟨"", "10.0.0.3", true⟩ : Hostname) (by decide) rfl⟩

/-- Claim C8 is a code bug: in the live pipeline
(src/pkg/host/updater.go `updateHostsFile`) the `hostfile.Save()` call is
commented out — the function prints the reconciled list as JSON and returns
nil, so no successful run ever hands the reconciled table to the store's
save operation, contradicting the function's own documented purpose and the
spec's control flow. -/
theorem C8_reconciled_table_never_saved :
    (∀ (readErr : Option String) (parseErrs : List String) (T : Hostlist)
        (M : List (String × Addr)),
      (updaterUpdateHostsFile readErr parseErrs T M).isSaved = false) ∧
    updaterUpdateHostsFile none [] [] [("host-a", "10.0.0.1")] =
      RunOutcome.printed [⟨"host-a", "10.0.0.1", true⟩] := by
  constructor
  · intro readErr parseErrs T M
    cases readErr with
    | some msg => rfl
    | none =>
      by_cases hp : parseErrs.length ≠ 0
      · simp [updaterUpdateHostsFile, hp, RunOutcome.isSaved]
      · simp [updaterUpdateHostsFile, hp, RunOutcome.isSaved]
  · decide

/-- Claim C9: when parsing the persisted table yields a non-empty error
list, the pipeline aborts with a single error carrying all the parse
errors; it never reconciles and never reaches the save (or print) step.
This holds in both `updateHostsFile` variants. -/
theorem C9_parse_errors_abort {parseErrs : List String}
    (hne : parseErrs ≠ []) (T : Hostlist) (M : List (String × Addr)) :
    updaterUpdateHostsFile none parseErrs T M =
      RunOutcome.parseFailed parseErrs ∧
    mainUpdateHostsFile none parseErrs T M =
      RunOutcome.parseFailed parseErrs := by
  have hlen : parseErrs.length ≠ 0 :=
    fun h => hne (List.eq_nil_of_length_eq_zero h)
  constructor
  · simp [updaterUpdateHostsFile, hlen]
  · simp [mainUpdateHostsFile, hlen]

/-- Witness for C9 at a concrete non-empty parse error list. -/
theorem C9_parse_errors_abort_witness :
    (["bad entry"] : List String) ≠ [] ∧
    updaterUpdateHostsFile none ["bad entry"] [⟨"host-b", "10.0.0.2", true⟩]
        [("host-a", "10.0.0.1")] = RunOutcome.parseFailed ["bad entry"] ∧
    mainUpdateHostsFile none ["bad entry"] [⟨"host-b", "10.0.0.2", true⟩]
        [("host-a", "10.0.0.1")] = RunOutcome.parseFailed ["bad entry"] :=
  ⟨by decide, (C9_parse_errors_abort (by decide) _ _).1,
    (C9_parse_errors_abort (by decide) _ _).2⟩

/-- Claim C10: `Updater.Update` does not validate its inputs — for an
unregistered provider id it indexes the map to the zero-value provider
whose nil `GetHostsFn` it then invokes, panicking; and for a registered
provider it calls `GetHostsFn` with the flags exactly as given, without
checking the provider's `RequiredFlags` against them. -/
theorem C10_update_without_validation :
    (∀ (u : Updater) (server : String) (flags : List (String × String))
        (readErr : Option String) (parseErrs : List String) (T : Hostlist),
      u.servers.lookup server = none →
      update u server flags readErr parseErrs T = UpdateOutcome.panicked) ∧
    (∀ (u : Updater) (server : String) (flags : List (String × String))
        (readErr : Option String) (parseErrs : List String) (T : Hostlist)
        (p : ServerProvider)
        (f : List (String × String) → Except String (List (String × Addr))),
      u.servers.lookup server = some p → p.getHostsFn = some f →
      update u server flags readErr parseErrs T =
        match f flags with
        | .error e => UpdateOutcome.failed ("could not update.... " ++ e)
        | .ok hosts =>
          UpdateOutcome.completed
            (updaterUpdateHostsFile readErr parseErrs T hosts)) := by
  constructor
  · intro u server flags readErr parseErrs T hlk
    simp [update, mapIndex, hlk, zeroServerProvider]
  · intro u server flags readErr parseErrs T p f hlk hfn
    simp [update, mapIndex, hlk, hfn]

/-- Witness for C10: an unregistered id panics, and a registered provider
with three required flags is invoked with an empty flags map without any
validation. -/
theorem C10_update_without_validation_witness :
    update ⟨[]⟩ "edgeos" [("address", "10.0.0.1")] none [] [] =
      UpdateOutcome.panicked ∧
    update (withServer newUpdater edgeosProvider) "edgeos" [] none [] [] =
      UpdateOutcome.completed
        (updaterUpdateHostsFile none [] [] [("host-a", "10.0.0.1")]) :=
  ⟨C10_update_without_validation.1 ⟨[]⟩ "edgeos" [("address", "10.0.0.1")]
      none [] [] rfl,
    C10_update_without_validation.2 (withServer newUpdater edgeosProvider)
      "edgeos" [] none [] [] edgeosProvider
      (fun _ => Except.ok [("host-a", "10.0.0.1")]) rfl rfl⟩
